import Mathlib

/-!
Verification of the chat-client stream assembler and message rendering of
the github-repo-analyzer frontend.

The embedding translates two source files:
  - `ChatInterface.tsx` (`handleSubmit`): the SSE stream assembler that
    reads byte chunks, splits on newline keeping the trailing fragment
    buffered, decodes `data: `-prefixed records and folds the decoded
    events into the conversation state;
  - `MessageList.tsx`: the keyword-based table-display policy and the
    50-row table truncation.

Strings are modelled as `List Char`; the network chunks of the response
body are byte lists (`List Nat`).  The source constructs a
`new TextDecoder()` (line 101) and runs `decoder.decode(value)` on each
chunk separately (line 163), without `stream: true`; that non-streaming
per-chunk UTF-8 decoding is modelled by `utf8Decode`, the WHATWG UTF-8
decoder emitting U+FFFD for malformed or truncated sequences, so a byte
split inside a multi-byte character yields replacement characters.
`JSON.parse` combined with the field reads `data.type`, `data.content`,
`data.toolCall`, `data.result`, `data.toolCalls`, `data.toolResults`,
`data.error` is an external builtin; it is modelled by an arbitrary
decoding function `decode : List Char -> Option StreamEvent` over which
all theorems quantify (a `none` result covers both a JSON parse failure
and a record whose `type` matches no branch of the dispatch, which the
source treats identically: the record is skipped).
-/

namespace GHA

/-- JSON values, used as the opaque payload type of tool results
(the source types them `any`). -/
inductive Json where
  | null
  | jbool (b : Bool)
  | jnum (n : Int)
  | jstr (s : List Char)
  | jarr (elems : List Json)
  | jobj (fields : List (List Char × Json))

/-- The whitespace characters stripped by JavaScript `String.prototype.trim`
(restricted to the ASCII ones, which are the only ones the proofs use). -/
def isJsSpace (c : Char) : Bool :=
  c = ' ' || c = '\t' || c = '\n' || c = '\r' || c = '\x0b' || c = '\x0c'

/-- JavaScript `s.trim()`: strip leading and trailing whitespace. -/
def trimChars (s : List Char) : List Char :=
  ((s.dropWhile isJsSpace).reverse.dropWhile isJsSpace).reverse

/-- JavaScript `s.split("\n")`: the list of newline-separated components,
always nonempty, e.g. `splitNL "" = [""]` and `splitNL "a\n" = ["a", ""]`. -/
def splitNL : List Char → List (List Char)
  | [] => [[]]
  | c :: cs =>
    if c = '\n' then [] :: splitNL cs
    else
      match splitNL cs with
      | [] => [[c]]
      | l :: ls => (c :: l) :: ls

/-- Prepend a fragment to the first component of a split
(used to state how `splitNL` acts on an append). -/
def consHead (p : List Char) : List (List Char) → List (List Char)
  | [] => [p]
  | q :: qs => (p ++ q) :: qs

/-- JavaScript `hay.includes(needle)`: substring test. -/
def jsIncludes (needle : List Char) : List Char → Bool
  | [] => needle.isPrefixOf []
  | c :: cs => needle.isPrefixOf (c :: cs) || jsIncludes needle cs

/-- Lexicographic string comparison, JavaScript `a <= b` on strings
(code-unit order). -/
def strLe : List Char → List Char → Bool
  | [], _ => true
  | _ :: _, [] => false
  | a :: as, b :: bs =>
    if a.toNat < b.toNat then true
    else if b.toNat < a.toNat then false
    else strLe as bs

/-- JavaScript `Number(s)` on the decimal digit strings produced by
`Date.now().toString()`, which is the only shape of message id the
application creates.  Total function: reads the decimal digits. -/
def jsNumber (s : List Char) : Nat :=
  s.foldl (fun acc c => acc * 10 + (c.toNat - '0'.toNat)) 0

/-- The Unicode replacement character U+FFFD that `TextDecoder` emits for
malformed input. -/
def replChar : Char := Char.ofNat 0xFFFD

/-- Whether a byte is a UTF-8 continuation byte (`10xxxxxx`). -/
def isCont (b : Nat) : Bool := 0x80 ≤ b && b < 0xC0

/-- The UTF-8 decoding performed by one `decoder.decode(value)` call of the
non-streaming `TextDecoder` the source constructs (`ChatInterface.tsx`
lines 101 and 163): the WHATWG UTF-8 decoder.  Well-formed sequences
decode to their scalar value; an invalid lead byte, an out-of-range or
missing continuation byte, and a sequence truncated at the end of the
chunk each yield U+FFFD, resuming at the offending byte.  In particular a
multi-byte character split across two chunks becomes replacement
characters, because each chunk is decoded independently. -/
def utf8Decode : List Nat → List Char
  | [] => []
  | b :: bs =>
    if b < 0x80 then Char.ofNat b :: utf8Decode bs
    else if b < 0xC2 then replChar :: utf8Decode bs
    else if b < 0xE0 then
      match bs with
      | [] => [replChar]
      | b2 :: bs2 =>
        if isCont b2 then
          Char.ofNat ((b - 0xC0) * 0x40 + (b2 - 0x80)) :: utf8Decode bs2
        else replChar :: utf8Decode (b2 :: bs2)
    else if b < 0xF0 then
      match bs with
      | [] => [replChar]
      | b2 :: bs2 =>
        if (if b = 0xE0 then 0xA0 else 0x80) ≤ b2 ∧ b2 ≤ (if b = 0xED then 0x9F else 0xBF) then
          match bs2 with
          | [] => [replChar]
          | b3 :: bs3 =>
            if isCont b3 then
              Char.ofNat ((b - 0xE0) * 0x1000 + (b2 - 0x80) * 0x40 + (b3 - 0x80)) ::
                utf8Decode bs3
            else replChar :: utf8Decode (b3 :: bs3)
        else replChar :: utf8Decode (b2 :: bs2)
    else if b < 0xF5 then
      match bs with
      | [] => [replChar]
      | b2 :: bs2 =>
        if (if b = 0xF0 then 0x90 else 0x80) ≤ b2 ∧ b2 ≤ (if b = 0xF4 then 0x8F else 0xBF) then
          match bs2 with
          | [] => [replChar]
          | b3 :: bs3 =>
            if isCont b3 then
              match bs3 with
              | [] => [replChar]
              | b4 :: bs4 =>
                if isCont b4 then
                  Char.ofNat ((b - 0xF0) * 0x40000 + (b2 - 0x80) * 0x1000 +
                    (b3 - 0x80) * 0x40 + (b4 - 0x80)) :: utf8Decode bs4
                else replChar :: utf8Decode (b4 :: bs4)
            else replChar :: utf8Decode (b3 :: bs3)
        else replChar :: utf8Decode (b2 :: bs2)
    else replChar :: utf8Decode bs

/-- The UTF-8 encoding of one Unicode scalar value (the byte sequence the
server emits for that character). -/
def utf8EncodeChar (c : Char) : List Nat :=
  if c.toNat < 0x80 then [c.toNat]
  else if c.toNat < 0x800 then
    [0xC0 + c.toNat / 0x40, 0x80 + c.toNat % 0x40]
  else if c.toNat < 0x10000 then
    [0xE0 + c.toNat / 0x1000, 0x80 + (c.toNat / 0x40) % 0x40, 0x80 + c.toNat % 0x40]
  else
    [0xF0 + c.toNat / 0x40000, 0x80 + (c.toNat / 0x1000) % 0x40,
      0x80 + (c.toNat / 0x40) % 0x40, 0x80 + c.toNat % 0x40]

/-- The UTF-8 encoding of a character sequence. -/
def utf8Encode (s : List Char) : List Nat :=
  (s.map utf8EncodeChar).flatten

/-- Message roles (`"user" | "assistant"` in `ChatInterface.tsx`). -/
inductive Role where
  | user
  | assistant
deriving DecidableEq

/-- The `function` part of a `ToolCall` (`ChatInterface.tsx`). -/
structure ToolFunction where
  name : List Char
  arguments : List Char

/-- Type `ToolCall` of `ChatInterface.tsx`. -/
structure ToolCall where
  id : List Char
  function : ToolFunction

/-- Type `ToolResult` of `ChatInterface.tsx`: every field optional, array
payloads kept as opaque JSON values. -/
structure ToolResult where
  screenshot : Option (List Char) := none
  repository : Option Json := none
  commits : Option (List Json) := none
  issues : Option (List Json) := none
  pullRequests : Option (List Json) := none

/-- Type `Message` of `ChatInterface.tsx`. -/
structure Message where
  id : List Char
  role : Role
  content : List Char
  toolCalls : Option (List ToolCall) := none
  toolResults : Option (List ToolResult) := none

/-- The `type`-tagged stream records of the SSE protocol, as read by the
dispatch in `handleSubmit`: `content` carries `data.content`, `tool_call`
carries `data.toolCall`, `tool_result` carries `data.result`, `done`
carries the optional `data.toolCalls` / `data.toolResults` summary lists,
`error` carries `data.error`. -/
inductive StreamEvent where
  | content (c : List Char)
  | toolCall (tc : ToolCall)
  | toolResult (r : ToolResult)
  | done (tcs : Option (List ToolCall)) (trs : Option (List ToolResult))
  | error (msg : List Char)

/-- Whether an event is the `error` record. -/
def StreamEvent.isErrorEvent : StreamEvent → Bool
  | .error _ => true
  | _ => false

/-- The mutable view state `handleSubmit` accumulates into: the message
list, the `assistantContent` accumulator, and the `currentToolCalls` /
`currentToolResults` arrays feeding the tool-usage indicator. -/
structure AssemblerState where
  messages : List Message
  assistantContent : List Char
  currentToolCalls : List ToolCall
  currentToolResults : List ToolResult

/-- The mid-stream event dispatch of `handleSubmit` (lines 176-225 of
`ChatInterface.tsx`), one branch per `data.type`.  The `error` branch is
`console.error` followed by `throw new Error(data.error)`; that `throw`
is raised inside the `try` block whose `catch` (line 226) only logs and
continues with the next line, so the state is unchanged. -/
def applyEventMid (aid : List Char) (e : StreamEvent) (s : AssemblerState) : AssemblerState :=
  match e with
  | .content c =>
    let ac := s.assistantContent ++ c
    { s with assistantContent := ac,
             messages := s.messages.map
               (fun m => if m.id = aid then { m with content := ac } else m) }
  | .toolCall tc =>
    { s with currentToolCalls := s.currentToolCalls ++ [tc],
             messages := s.messages.map
               (fun m => if m.id = aid then
                  { m with toolCalls := some ((m.toolCalls.getD []) ++ [tc]) } else m) }
  | .toolResult r =>
    { s with currentToolResults := s.currentToolResults ++ [r],
             messages := s.messages.map
               (fun m => if m.id = aid then
                  { m with toolResults := some ((m.toolResults.getD []) ++ [r]) } else m) }
  | .done tcs trs =>
    { s with messages := s.messages.map
               (fun m => if m.id = aid then
                  { m with toolCalls := some (tcs.getD []),
                           toolResults := some (trs.getD []) } else m) }
  | .error _ => s

/-- The end-of-stream event dispatch of `handleSubmit` (lines 132-153 of
`ChatInterface.tsx`): the final extraction pass only has branches for
`content` and `done` (their bodies duplicate the mid-stream ones); a
`tool_call`, `tool_result` or `error` record parses but matches no branch
and leaves the state unchanged. -/
def applyEventFinal (aid : List Char) (e : StreamEvent) (s : AssemblerState) : AssemblerState :=
  match e with
  | .content c =>
    let ac := s.assistantContent ++ c
    { s with assistantContent := ac,
             messages := s.messages.map
               (fun m => if m.id = aid then { m with content := ac } else m) }
  | .done tcs trs =>
    { s with messages := s.messages.map
               (fun m => if m.id = aid then
                  { m with toolCalls := some (tcs.getD []),
                           toolResults := some (trs.getD []) } else m) }
  | _ => s

/-- The per-line record extraction shared by both passes of `handleSubmit`:
skip a line that is whitespace, require the `data: ` marker, strip it,
trim the payload, skip an empty payload, decode.  A `none` result means
the line contributed no event. -/
def decodeLine (decode : List Char → Option StreamEvent) (line : List Char) :
    Option StreamEvent :=
  if trimChars line = [] then none
  else if ("data: ".toList).isPrefixOf line then
    let jsonStr := trimChars (line.drop 6)
    if jsonStr = [] then none else decode jsonStr
  else none

/-- Processing of one complete line inside the mid-stream chunk loop. -/
def processLineMid (decode : List Char → Option StreamEvent) (aid : List Char)
    (s : AssemblerState) (line : List Char) : AssemblerState :=
  match decodeLine decode line with
  | some e => applyEventMid aid e s
  | none => s

/-- Processing of one line of the leftover buffer in the end-of-stream pass. -/
def processLineFinal (decode : List Char → Option StreamEvent) (aid : List Char)
    (s : AssemblerState) (line : List Char) : AssemblerState :=
  match decodeLine decode line with
  | some e => applyEventFinal aid e s
  | none => s

/-- The chunk loop of `handleSubmit` (lines 115-165): for each chunk,
append it to the buffer, split on newline, put the popped last component
back into the buffer, and fold `step` over the remaining complete lines.
Returns the folded state and the final buffer.  Generic in the folded
state so that the same loop yields both the conversation state and the
decoded event sequence. -/
def runSSE {σ : Type} (step : σ → List Char → σ) :
    σ → List Char → List (List Char) → σ × List Char
  | s, buf, [] => (s, buf)
  | s, buf, c :: cs =>
    let lines := splitNL (buf ++ c)
    runSSE step (lines.dropLast.foldl step s) (lines.getLastD []) cs

/-- The end-of-stream pass of `handleSubmit` (lines 119-159): if the
buffer is nonempty, split it on newline and process each line with the
final-pass dispatch. -/
def finalPass (decode : List Char → Option StreamEvent) (aid : List Char)
    (s : AssemblerState) (buf : List Char) : AssemblerState :=
  if buf = [] then s else (splitNL buf).foldl (processLineFinal decode aid) s

/-- The whole stream-assembly loop of `handleSubmit`: fold all chunks with
the mid-stream dispatch, then run the end-of-stream pass on the leftover
buffer. -/
def runAssembler (decode : List Char → Option StreamEvent) (aid : List Char)
    (s : AssemblerState) (chunks : List (List Char)) : AssemblerState :=
  finalPass decode aid (runSSE (processLineMid decode aid) s [] chunks).1
    (runSSE (processLineMid decode aid) s [] chunks).2

/-- The decoded events contributed by the end-of-stream pass. -/
def finalEvents (decode : List Char → Option StreamEvent) (buf : List Char) :
    List StreamEvent :=
  if buf = [] then []
  else (splitNL buf).foldl (fun acc line => acc ++ (decodeLine decode line).toList) []

/-- The ordered sequence of decoded `StreamEvent`s the assembler extracts
from a chunk sequence: the events of the complete lines of the chunk loop
followed by the events of the end-of-stream pass. -/
def assembleEvents (decode : List Char → Option StreamEvent)
    (chunks : List (List Char)) : List StreamEvent :=
  (runSSE (fun acc line => acc ++ (decodeLine decode line).toList) [] [] chunks).1 ++
    finalEvents decode
      (runSSE (fun acc line => acc ++ (decodeLine decode line).toList) [] [] chunks).2

/-- The stream assembler seen from the network: the response body arrives
as byte chunks, each one passed through `decoder.decode(value)` of the
non-streaming `TextDecoder` (`buffer += decoder.decode(value)`, line 163)
before entering the character-level chunk loop.  The ordered event
sequence the assembler extracts from a byte-chunk sequence. -/
def assembleEventsBytes (decode : List Char → Option StreamEvent)
    (chunks : List (List Nat)) : List StreamEvent :=
  assembleEvents decode (chunks.map utf8Decode)

/-- The `{role, content}` projection sent to the chat endpoint. -/
structure RequestMessage where
  role : Role
  content : List Char

/-- The request body built by `handleSubmit` (lines 88-93):
`[...messages, userMessage].map((m) => ({role: m.role, content: m.content}))`. -/
def requestBody (messages : List Message) (userMessage : Message) :
    List RequestMessage :=
  (messages ++ [userMessage]).map (fun m => { role := m.role, content := m.content })

/-- Source `MessageList.tsx`: the user message the display heuristics inspect,
`messages.filter((m) => m.role === "user" && m.id <= message.id)
         .sort((a, b) => Number(b.id) - Number(a.id))[0]`.
The filter compares ids as strings, the sort compares them as numbers;
the sort is modelled by a stable insertion sort, matching the stability
of `Array.prototype.sort`: an element is inserted in front of the first
element whose key is at most its own, so among tied keys the original
order is kept. -/
def insertByDesc (key : Message → Nat) (x : Message) : List Message → List Message
  | [] => [x]
  | y :: ys => if key y ≤ key x then x :: y :: ys else y :: insertByDesc key x ys

/-- Stable sort in descending key order (see `insertByDesc`). -/
def sortByDesc (key : Message → Nat) : List Message → List Message
  | [] => []
  | x :: xs => insertByDesc key x (sortByDesc key xs)

/-- The most recent user message at or before `message`, as selected in
`MessageList.tsx` (lines 232-234 for the issues table). -/
def latestUserMessage (messages : List Message) (message : Message) : Option Message :=
  (sortByDesc (fun m => jsNumber m.id)
    (messages.filter (fun m => decide (m.role = Role.user) && strLe m.id message.id))).head?

/-- Expression `userMessage?.content?.toLowerCase() || ""` of `MessageList.tsx`. -/
def latestUserContent (messages : List Message) (message : Message) : List Char :=
  match latestUserMessage messages message with
  | some m => m.content.map Char.toLower
  | none => []

/-- Predicate `askedForPullRequests` of `MessageList.tsx`. -/
def askedForPullRequestsB (c : List Char) : Bool :=
  jsIncludes ("pull request".toList) c || jsIncludes ("pr".toList) c ||
    jsIncludes ("pull requests".toList) c

/-- Predicate `askedForIssues` of `MessageList.tsx`. -/
def askedForIssuesB (c : List Char) : Bool :=
  jsIncludes ("issue".toList) c && !(jsIncludes ("pull request".toList) c)

/-- Predicate `isGeneralAnalysis` of `MessageList.tsx`. -/
def isGeneralAnalysisB (c : List Char) : Bool :=
  jsIncludes ("analyze".toList) c || jsIncludes ("show me".toList) c ||
    jsIncludes ("repository info".toList) c || jsIncludes ("repository data".toList) c

/-- Check `r.issues && Array.isArray(r.issues) && r.issues.length > 0` for one
tool result (`MessageList.tsx` line 228). -/
def issuesNonemptyR (r : ToolResult) : Bool :=
  match r.issues with
  | some l => decide (0 < l.length)
  | none => false

/-- Predicate `hasIssues` of the issues block of `MessageList.tsx`. -/
def hasIssuesB (trs : List ToolResult) : Bool :=
  trs.any issuesNonemptyR

/-- Whether the issues table of `MessageList.tsx` is rendered for
`message` within `messages`: the message must be in the assistant branch,
pass the `toolResults && toolResults.length > 0` guard (line 105), the
`hasIssues` guard (line 229), and the keyword rule `shouldShowIssues`
(lines 252-253). -/
def issuesTableShown (messages : List Message) (message : Message) : Bool :=
  decide (message.role = Role.assistant) &&
  (match message.toolResults with
   | none => false
   | some trs =>
     decide (0 < trs.length) && hasIssuesB trs &&
     (let c := latestUserContent messages message
      askedForIssuesB c || (isGeneralAnalysisB c && !askedForPullRequestsB c)))

/-- The display condition for the issues table as worded by the
specification claim: the lowercased user content contains "issue" and not
"pull request", or contains a general-analysis keyword while containing
none of the pull-request keywords.  Stated independently of the source
translation so the two can be compared. -/
def claimIssuesCond (c : List Char) : Bool :=
  (jsIncludes ("issue".toList) c && !(jsIncludes ("pull request".toList) c)) ||
  ((jsIncludes ("analyze".toList) c || jsIncludes ("show me".toList) c ||
      jsIncludes ("repository info".toList) c || jsIncludes ("repository data".toList) c) &&
    !(jsIncludes ("pull request".toList) c || jsIncludes ("pr".toList) c ||
        jsIncludes ("pull requests".toList) c))

/-- Expression `message.toolResults.find((r) => r.commits)?.commits` (`MessageList.tsx`
line 189; a present field is truthy, an absent one falsy). -/
def foundCommits (trs : List ToolResult) : Option (List Json) :=
  (trs.find? (fun r => r.commits.isSome)).bind (fun r => r.commits)

/-- The commits array backing the commits table, `[]` when absent. -/
def commitsArr (trs : List ToolResult) : List Json :=
  (foundCommits trs).getD []

/-- The commit count in the table heading,
`...find((r) => r.commits)?.commits?.length || 0` (line 175). -/
def commitsHeadingCount (trs : List ToolResult) : Nat :=
  match foundCommits trs with
  | some l => l.length
  | none => 0

/-- The commit entries rendered as table rows:
`commitsData.slice(0, 50).map(...)`, one `<tr>` per entry (lines 188-193). -/
def commitsRows (trs : List ToolResult) : List Json :=
  match foundCommits trs with
  | some l => l.take 50
  | none => []

/-- Expression `message.toolResults.find((r) => r.issues)?.issues` (line 274). -/
def foundIssues (trs : List ToolResult) : Option (List Json) :=
  (trs.find? (fun r => r.issues.isSome)).bind (fun r => r.issues)

/-- The issues array backing the issues table, `[]` when absent. -/
def issuesArr (trs : List ToolResult) : List Json :=
  (foundIssues trs).getD []

/-- The issue count in the table heading (line 258). -/
def issuesHeadingCount (trs : List ToolResult) : Nat :=
  match foundIssues trs with
  | some l => l.length
  | none => 0

/-- The issue entries rendered as table rows,
`issuesData.slice(0, 50).map(...)` (lines 273-278). -/
def issuesRows (trs : List ToolResult) : List Json :=
  match foundIssues trs with
  | some l => l.take 50
  | none => []

/-- Expression `message.toolResults.find((r) => r.pullRequests)?.pullRequests` (line 388). -/
def foundPullRequests (trs : List ToolResult) : Option (List Json) :=
  (trs.find? (fun r => r.pullRequests.isSome)).bind (fun r => r.pullRequests)

/-- The pull-request array backing the pull-requests table, `[]` when absent. -/
def pullRequestsArr (trs : List ToolResult) : List Json :=
  (foundPullRequests trs).getD []

/-- The pull-request count in the table heading (line 372). -/
def pullRequestsHeadingCount (trs : List ToolResult) : Nat :=
  match foundPullRequests trs with
  | some l => l.length
  | none => 0

/-- The pull-request entries rendered as table rows,
`prsData.slice(0, 50).map(...)` (lines 387-392). -/
def pullRequestsRows (trs : List ToolResult) : List Json :=
  match foundPullRequests trs with
  | some l => l.take 50
  | none => []

/-! ### Structure of `splitNL` -/

theorem splitNL_ne_nil (s : List Char) : splitNL s ≠ [] := by
  induction s with
  | nil => simp [splitNL]
  | cons c cs ih =>
    simp only [splitNL]
    by_cases h : c = '\n'
    · simp [h]
    · simp only [h, if_false]
      cases hs : splitNL cs with
      | nil => simp
      | cons l ls => simp

theorem getLastD_mem {α : Type _} (l : List α) (d : α) (h : l ≠ []) :
    l.getLastD d ∈ l := by
  induction l generalizing d with
  | nil => exact absurd rfl h
  | cons a as ih =>
    rw [List.getLastD_cons]
    cases as with
    | nil => simp [List.getLastD]
    | cons b bs => exact List.mem_cons_of_mem a (ih a (by simp))

theorem getLastD_default_irrel {α : Type _} (l : List α) (h : l ≠ []) (a b : α) :
    l.getLastD a = l.getLastD b := by
  rw [List.getLastD_eq_getLast?, List.getLastD_eq_getLast?]
  rcases ho : l.getLast? with _ | x
  · exact absurd (List.getLast?_eq_none_iff.mp ho) h
  · rfl

theorem getLastD_append_of_ne_nil {α : Type _} (l l' : List α) (h : l' ≠ []) (d : α) :
    (l ++ l').getLastD d = l'.getLastD d := by
  rw [List.getLastD_eq_getLast?, List.getLastD_eq_getLast?, List.getLast?_append]
  rcases ho : l'.getLast? with _ | x
  · exact absurd (List.getLast?_eq_none_iff.mp ho) h
  · rfl

theorem splitNL_cons_newline (cs : List Char) :
    splitNL ('\n' :: cs) = [] :: splitNL cs := by
  simp [splitNL]

theorem splitNL_cons_other (c : Char) (cs : List Char) (h : ¬ c = '\n')
    (p : List Char) (ps : List (List Char)) (hs : splitNL cs = p :: ps) :
    splitNL (c :: cs) = (c :: p) :: ps := by
  simp [splitNL, h, hs]

theorem splitNL_append (xs ys : List Char) :
    splitNL (xs ++ ys) =
      (splitNL xs).dropLast ++ consHead ((splitNL xs).getLastD []) (splitNL ys) := by
  induction xs with
  | nil =>
    cases hy : splitNL ys with
    | nil => exact absurd hy (splitNL_ne_nil ys)
    | cons q qs => simp [splitNL, consHead, List.getLastD, hy]
  | cons c cs ih =>
    by_cases h : c = '\n'
    · subst h
      cases hs : splitNL cs with
      | nil => exact absurd hs (splitNL_ne_nil cs)
      | cons l ls =>
        rw [List.cons_append, splitNL_cons_newline, ih, splitNL_cons_newline, hs]
        simp [List.dropLast_cons₂, List.getLastD_cons]
    · cases hs : splitNL cs with
      | nil => exact absurd hs (splitNL_ne_nil cs)
      | cons p ps =>
        cases hy : splitNL ys with
        | nil => exact absurd hy (splitNL_ne_nil ys)
        | cons q qs =>
          have hsc : splitNL (c :: cs) = (c :: p) :: ps :=
            splitNL_cons_other c cs h p ps hs
          have hmid := ih
          rw [hs, hy] at hmid
          cases ps with
          | nil =>
            have hmid2 : splitNL (cs ++ ys) = (p ++ q) :: qs := by
              simpa [consHead, List.getLastD] using hmid
            rw [List.cons_append,
              splitNL_cons_other c (cs ++ ys) h (p ++ q) qs hmid2, hsc]
            simp [consHead, List.getLastD]
          | cons r rs =>
            have hx : (r :: rs).getLastD p = (r :: rs).getLastD (c :: p) :=
              getLastD_default_irrel _ (by simp) _ _
            have hmid2 : splitNL (cs ++ ys) =
                p :: ((r :: rs).dropLast ++
                  consHead ((r :: rs).getLastD (c :: p)) (q :: qs)) := by
              rw [hmid]
              simp only [List.dropLast_cons₂, List.getLastD_cons, List.cons_append, hx]
            rw [List.cons_append,
              splitNL_cons_other c (cs ++ ys) h _ _ hmid2, hsc]
            simp only [List.dropLast_cons₂, List.getLastD_cons, List.cons_append]

theorem mem_splitNL_no_newline (s : List Char) :
    ∀ l ∈ splitNL s, '\n' ∉ l := by
  induction s with
  | nil =>
    intro l hl
    simp [splitNL] at hl
    simp [hl]
  | cons c cs ih =>
    intro l hl
    by_cases h : c = '\n'
    · rw [show splitNL (c :: cs) = [] :: splitNL cs by simp [splitNL, h]] at hl
      rcases List.mem_cons.mp hl with h1 | h1
      · simp [h1]
      · exact ih l h1
    · cases hs : splitNL cs with
      | nil => exact absurd hs (splitNL_ne_nil cs)
      | cons p ps =>
        rw [show splitNL (c :: cs) = (c :: p) :: ps by simp [splitNL, h, hs]] at hl
        rcases List.mem_cons.mp hl with h1 | h1
        · subst h1
          intro hmem
          rcases List.mem_cons.mp hmem with h2 | h2
          · exact h h2.symm
          · exact ih p (by simp [hs]) h2
        · exact ih l (by simp [hs, h1])

theorem splitNL_eq_single (s : List Char) (h : '\n' ∉ s) : splitNL s = [s] := by
  induction s with
  | nil => simp [splitNL]
  | cons c cs ih =>
    have hc : ¬ c = '\n' := fun hc => h (by simp [hc])
    have hcs : splitNL cs = [cs] := ih (fun hm => h (List.mem_cons_of_mem c hm))
    simp [splitNL, hc, hcs]

theorem splitNL_single_append (p ys : List Char) (h : '\n' ∉ p) :
    splitNL (p ++ ys) = consHead p (splitNL ys) := by
  rw [splitNL_append, splitNL_eq_single p h]
  simp [List.getLastD]

/-! ### Characterization of the chunk loop: the processed lines depend only
on the concatenation of the chunks. -/

theorem runSSE_eq {σ : Type} (step : σ → List Char → σ) (chunks : List (List Char))
    (s : σ) (buf : List Char) (h : '\n' ∉ buf) :
    runSSE step s buf chunks =
      ((splitNL (buf ++ chunks.flatten)).dropLast.foldl step s,
       (splitNL (buf ++ chunks.flatten)).getLastD []) := by
  induction chunks generalizing s buf with
  | nil =>
    rw [runSSE]
    simp [splitNL_eq_single buf h, List.getLastD]
  | cons c cs ih =>
    rw [runSSE]
    have hb1 : '\n' ∉ (splitNL (buf ++ c)).getLastD [] :=
      mem_splitNL_no_newline (buf ++ c) _
        (getLastD_mem _ _ (splitNL_ne_nil (buf ++ c)))
    rw [ih _ _ hb1]
    have hconsnn := splitNL_ne_nil ((splitNL (buf ++ c)).getLastD [] ++ cs.flatten)
    have hsplit : splitNL (buf ++ (c :: cs).flatten) =
        (splitNL (buf ++ c)).dropLast ++
          splitNL ((splitNL (buf ++ c)).getLastD [] ++ cs.flatten) := by
      rw [show buf ++ (c :: cs).flatten = (buf ++ c) ++ cs.flatten by
        simp [List.flatten]]
      rw [splitNL_append]
      rw [splitNL_single_append _ _ hb1]
    rw [hsplit, Prod.mk.injEq]
    refine ⟨?_, ?_⟩
    · rw [List.dropLast_append_of_ne_nil _ hconsnn, List.foldl_append]
    · exact (getLastD_append_of_ne_nil _ _ hconsnn []).symm

/-! ### Record lines and malformed payloads -/

/-- A sequence of newline-terminated lines as one text. -/
def linesText (ls : List (List Char)) : List Char :=
  (ls.map (fun l => l ++ ['\n'])).flatten

theorem splitNL_linesText (ls : List (List Char)) (t : List Char)
    (h : ∀ l ∈ ls, '\n' ∉ l) :
    splitNL (linesText ls ++ t) = ls ++ splitNL t := by
  induction ls with
  | nil => simp [linesText]
  | cons l ls ih =>
    have hl : '\n' ∉ l := h l (by simp)
    have hls : ∀ x ∈ ls, '\n' ∉ x := fun x hx => h x (by simp [hx])
    have hshape : linesText (l :: ls) ++ t = l ++ ('\n' :: (linesText ls ++ t)) := by
      simp [linesText]
    rw [hshape, splitNL_single_append _ _ hl, splitNL_cons_newline, ih hls]
    simp [consHead]

theorem trimChars_cons_ne_nil (c : Char) (rest : List Char) (h : isJsSpace c = false) :
    trimChars (c :: rest) ≠ [] := by
  unfold trimChars
  rw [List.dropWhile_cons, h]
  simp only [Bool.false_eq_true, if_false]
  intro hc
  rw [List.reverse_eq_nil_iff] at hc
  have hall := List.dropWhile_eq_nil_iff.mp hc
  have hcmem : c ∈ (c :: rest).reverse := by simp
  have := hall c hcmem
  rw [h] at this
  exact Bool.false_ne_true this

theorem isPrefixOf_append_self (p t : List Char) : p.isPrefixOf (p ++ t) = true := by
  induction p with
  | nil => simp [List.isPrefixOf]
  | cons c cs ih => simp [List.isPrefixOf, ih]

/-- A `data: `-prefixed line whose trimmed payload the decoder rejects
contributes no event. -/
theorem decodeLine_malformed (decode : List Char → Option StreamEvent)
    (payload : List Char) (hd : decode (trimChars payload) = none) :
    decodeLine decode ("data: ".toList ++ payload) = none := by
  unfold decodeLine
  have h1 : trimChars ("data: ".toList ++ payload) ≠ [] := by
    have hshape : ("data: ".toList ++ payload) = 'd' :: ("ata: ".toList ++ payload) := rfl
    rw [hshape]
    exact trimChars_cons_ne_nil 'd' _ (by decide)
  rw [if_neg h1, if_pos (isPrefixOf_append_self _ _)]
  have h2 : ("data: ".toList ++ payload).drop 6 = payload := by
    have hlen : ("data: ".toList).length = 6 := rfl
    rw [← hlen]
    exact List.drop_left _ _
  rw [h2]
  by_cases h3 : trimChars payload = []
  · rw [if_pos h3]
  · rw [if_neg h3, hd]

/-! ### UTF-8 round trip on well-formed sequences -/

theorem utf8Decode_two (b b2 : Nat) (bs2 : List Nat)
    (h1 : 0xC2 ≤ b) (h2 : b < 0xE0) (h3 : isCont b2 = true) :
    utf8Decode (b :: b2 :: bs2) =
      Char.ofNat ((b - 0xC0) * 0x40 + (b2 - 0x80)) :: utf8Decode bs2 := by
  conv_lhs => unfold utf8Decode
  rw [if_neg (by omega), if_neg (by omega), if_pos (by omega)]
  show (if isCont b2 = true then
      Char.ofNat ((b - 0xC0) * 0x40 + (b2 - 0x80)) :: utf8Decode bs2
    else replChar :: utf8Decode (b2 :: bs2)) =
    Char.ofNat ((b - 0xC0) * 0x40 + (b2 - 0x80)) :: utf8Decode bs2
  rw [if_pos h3]

theorem utf8Decode_three (b b2 b3 : Nat) (bs3 : List Nat)
    (h1 : 0xE0 ≤ b) (h2 : b < 0xF0)
    (hlo : (if b = 0xE0 then 0xA0 else 0x80) ≤ b2)
    (hhi : b2 ≤ (if b = 0xED then 0x9F else 0xBF))
    (h3 : isCont b3 = true) :
    utf8Decode (b :: b2 :: b3 :: bs3) =
      Char.ofNat ((b - 0xE0) * 0x1000 + (b2 - 0x80) * 0x40 + (b3 - 0x80)) ::
        utf8Decode bs3 := by
  conv_lhs => unfold utf8Decode
  rw [if_neg (by omega), if_neg (by omega), if_neg (by omega), if_pos (by omega)]
  show (if (if b = 0xE0 then 0xA0 else 0x80) ≤ b2 ∧ b2 ≤ (if b = 0xED then 0x9F else 0xBF) then
      match b3 :: bs3 with
      | [] => [replChar]
      | b3 :: bs3 =>
        if isCont b3 then
          Char.ofNat ((b - 0xE0) * 0x1000 + (b2 - 0x80) * 0x40 + (b3 - 0x80)) ::
            utf8Decode bs3
        else replChar :: utf8Decode (b3 :: bs3)
    else replChar :: utf8Decode (b2 :: b3 :: bs3)) = _
  rw [if_pos ⟨hlo, hhi⟩]
  show (if isCont b3 = true then
      Char.ofNat ((b - 0xE0) * 0x1000 + (b2 - 0x80) * 0x40 + (b3 - 0x80)) :: utf8Decode bs3
    else replChar :: utf8Decode (b3 :: bs3)) = _
  rw [if_pos h3]

theorem utf8Decode_four (b b2 b3 b4 : Nat) (bs4 : List Nat)
    (h1 : 0xF0 ≤ b) (h2 : b < 0xF5)
    (hlo : (if b = 0xF0 then 0x90 else 0x80) ≤ b2)
    (hhi : b2 ≤ (if b = 0xF4 then 0x8F else 0xBF))
    (h3 : isCont b3 = true) (h4 : isCont b4 = true) :
    utf8Decode (b :: b2 :: b3 :: b4 :: bs4) =
      Char.ofNat ((b - 0xF0) * 0x40000 + (b2 - 0x80) * 0x1000 +
        (b3 - 0x80) * 0x40 + (b4 - 0x80)) :: utf8Decode bs4 := by
  conv_lhs => unfold utf8Decode
  rw [if_neg (by omega), if_neg (by omega), if_neg (by omega), if_neg (by omega),
    if_pos (by omega)]
  show (if (if b = 0xF0 then 0x90 else 0x80) ≤ b2 ∧ b2 ≤ (if b = 0xF4 then 0x8F else 0xBF) then
      match b3 :: b4 :: bs4 with
      | [] => [replChar]
      | b3 :: bs3 =>
        if isCont b3 then
          match bs3 with
          | [] => [replChar]
          | b4 :: bs4 =>
            if isCont b4 then
              Char.ofNat ((b - 0xF0) * 0x40000 + (b2 - 0x80) * 0x1000 +
                (b3 - 0x80) * 0x40 + (b4 - 0x80)) :: utf8Decode bs4
            else replChar :: utf8Decode (b4 :: bs4)
        else replChar :: utf8Decode (b3 :: bs3)
    else replChar :: utf8Decode (b2 :: b3 :: b4 :: bs4)) = _
  rw [if_pos ⟨hlo, hhi⟩]
  show (if isCont b3 = true then
      match b4 :: bs4 with
      | [] => [replChar]
      | b4 :: bs4 =>
        if isCont b4 then
          Char.ofNat ((b - 0xF0) * 0x40000 + (b2 - 0x80) * 0x1000 +
            (b3 - 0x80) * 0x40 + (b4 - 0x80)) :: utf8Decode bs4
        else replChar :: utf8Decode (b4 :: bs4)
    else replChar :: utf8Decode (b3 :: b4 :: bs4)) = _
  rw [if_pos h3]
  show (if isCont b4 = true then
      Char.ofNat ((b - 0xF0) * 0x40000 + (b2 - 0x80) * 0x1000 +
        (b3 - 0x80) * 0x40 + (b4 - 0x80)) :: utf8Decode bs4
    else replChar :: utf8Decode (b4 :: bs4)) = _
  rw [if_pos h4]

/-- Decoding the UTF-8 encoding of one character consumes exactly its
bytes and yields the character back. -/
theorem utf8Decode_encodeChar (c : Char) (rest : List Nat) :
    utf8Decode (utf8EncodeChar c ++ rest) = c :: utf8Decode rest := by
  have hval : c.toNat < 0xD800 ∨ (0xDFFF < c.toNat ∧ c.toNat < 0x110000) := c.valid
  have hofn : Char.ofNat c.toNat = c := Char.ofNat_toNat c
  by_cases h1 : c.toNat < 0x80
  · have he : utf8EncodeChar c = [c.toNat] := by
      unfold utf8EncodeChar
      rw [if_pos h1]
    rw [he, List.cons_append, List.nil_append]
    conv_lhs => unfold utf8Decode
    rw [if_pos h1, hofn]
  · by_cases h2 : c.toNat < 0x800
    · have he : utf8EncodeChar c = [0xC0 + c.toNat / 0x40, 0x80 + c.toNat % 0x40] := by
        unfold utf8EncodeChar
        rw [if_neg h1, if_pos h2]
      rw [he, List.cons_append, List.cons_append, List.nil_append,
        utf8Decode_two _ _ _ (by omega) (by omega) (by simp [isCont]; omega)]
      have harith : (0xC0 + c.toNat / 0x40 - 0xC0) * 0x40 + (0x80 + c.toNat % 0x40 - 0x80) =
          c.toNat := by omega
      rw [harith, hofn]
    · by_cases h3 : c.toNat < 0x10000
      · have he : utf8EncodeChar c =
            [0xE0 + c.toNat / 0x1000, 0x80 + (c.toNat / 0x40) % 0x40,
              0x80 + c.toNat % 0x40] := by
          unfold utf8EncodeChar
          rw [if_neg h1, if_neg h2, if_pos h3]
        rw [he, List.cons_append, List.cons_append, List.cons_append, List.nil_append,
          utf8Decode_three _ _ _ _ (by omega) (by omega)
            (by split_ifs with h <;> omega) (by split_ifs with h <;> omega)
            (by simp [isCont]; omega)]
        have harith : (0xE0 + c.toNat / 0x1000 - 0xE0) * 0x1000 +
            (0x80 + (c.toNat / 0x40) % 0x40 - 0x80) * 0x40 +
            (0x80 + c.toNat % 0x40 - 0x80) = c.toNat := by omega
        rw [harith, hofn]
      · have he : utf8EncodeChar c =
            [0xF0 + c.toNat / 0x40000, 0x80 + (c.toNat / 0x1000) % 0x40,
              0x80 + (c.toNat / 0x40) % 0x40, 0x80 + c.toNat % 0x40] := by
          unfold utf8EncodeChar
          rw [if_neg h1, if_neg h2, if_neg h3]
        rw [he, List.cons_append, List.cons_append, List.cons_append, List.cons_append,
          List.nil_append,
          utf8Decode_four _ _ _ _ _ (by omega) (by omega)
            (by split_ifs with h <;> omega) (by split_ifs with h <;> omega)
            (by simp [isCont]; omega) (by simp [isCont]; omega)]
        have harith : (0xF0 + c.toNat / 0x40000 - 0xF0) * 0x40000 +
            (0x80 + (c.toNat / 0x1000) % 0x40 - 0x80) * 0x1000 +
            (0x80 + (c.toNat / 0x40) % 0x40 - 0x80) * 0x40 +
            (0x80 + c.toNat % 0x40 - 0x80) = c.toNat := by omega
        rw [harith, hofn]

/-- Round trip: decoding the UTF-8 encoding of a character sequence
yields it back.  In particular a chunk that is a whole encoding (a split
at a character boundary) passes through `decoder.decode` unharmed. -/
theorem utf8Decode_encode (s : List Char) : utf8Decode (utf8Encode s) = s := by
  induction s with
  | nil => rfl
  | cons c cs ih =>
    have hshape : utf8Encode (c :: cs) = utf8EncodeChar c ++ utf8Encode cs := by
      simp [utf8Encode]
    rw [hshape, utf8Decode_encodeChar, ih]

theorem utf8Encode_append (a b : List Char) :
    utf8Encode (a ++ b) = utf8Encode a ++ utf8Encode b := by
  simp [utf8Encode]

theorem utf8Encode_flatten (ls : List (List Char)) :
    utf8Encode ls.flatten = (ls.map utf8Encode).flatten := by
  induction ls with
  | nil => rfl
  | cons a as ih =>
    simp only [List.flatten_cons, List.map_cons, utf8Encode_append, ih]

/-! ### Claim theorems: stream assembler -/

/-- Character-level chunking invariance of the assembler loop: for every
decoder and any two ways of splitting the same character stream into
chunks, the loop (append chunk to buffer, split on newline, keep the last
incomplete fragment buffered, plus the end-of-stream pass) yields the
same ordered sequence of decoded `StreamEvent`s.  This covers the loop
from the string buffer on; the per-chunk `TextDecoder` byte stage sits in
front of it (`assembleEventsBytes`). -/
theorem assembleEvents_flatten_invariant (decode : List Char → Option StreamEvent)
    (cs ds : List (List Char)) (h : cs.flatten = ds.flatten) :
    assembleEvents decode cs = assembleEvents decode ds := by
  unfold assembleEvents
  rw [runSSE_eq _ cs _ _ (by simp), runSSE_eq _ ds _ _ (by simp), h]

/-- The character U+00E9 (a two-byte character, UTF-8 `C3 A9`). -/
def eAcute : Char := Char.ofNat 0xE9

/-- A decoder for the C1 counterexample, playing `JSON.parse` plus the
field reads at one concrete payload: the one-character payload U+00E9
decodes to a content event, everything else is rejected. -/
def decodeU (s : List Char) : Option StreamEvent :=
  if s = [eAcute] then some (StreamEvent.content ("ok".toList)) else none

/-- The bytes of the ASCII record marker `data: `. -/
def bytesPre : List Nat := ("data: ".toList).map Char.toNat

/-- C1 counterexample: byte-level chunking invariance fails.  The stream
`data: ` `C3 A9` `0A` (one complete record whose payload is the two-byte
character U+00E9) is split once as a whole and once between the two bytes
of the character.  Both splits concatenate to the same bytes, but because
`decoder.decode(value)` is called per chunk without `stream: true`
(lines 101, 163), the split decodes the two halves to U+FFFD replacement
characters: the unsplit stream yields one content event, the split stream
yields none. -/
theorem c1_counterexample :
    ([bytesPre ++ [0xC3, 0xA9, 0x0A]].flatten =
        [bytesPre ++ [0xC3], [0xA9, 0x0A]].flatten) ∧
      ¬ (assembleEventsBytes decodeU [bytesPre ++ [0xC3, 0xA9, 0x0A]] =
          assembleEventsBytes decodeU [bytesPre ++ [0xC3], [0xA9, 0x0A]]) := by
  refine ⟨by decide, fun h => ?_⟩
  have h2 := congrArg List.length h
  revert h2
  decide

/-- C1 (amended): chunking invariance holds for every byte split at
character boundaries.  For any two byte-chunk sequences in which every
chunk is the UTF-8 encoding of a character sequence (so no chunk boundary
divides a multi-byte character), equality of the concatenated byte
streams implies that the assembler extracts exactly the same ordered
sequence of decoded `StreamEvent`s. -/
theorem c1_boundary_chunking_invariance (decode : List Char → Option StreamEvent)
    (css dss : List (List Char)) (cs ds : List (List Nat))
    (hcs : cs = css.map utf8Encode) (hds : ds = dss.map utf8Encode)
    (h : cs.flatten = ds.flatten) :
    assembleEventsBytes decode cs = assembleEventsBytes decode ds := by
  subst hcs hds
  unfold assembleEventsBytes
  have hmap : ∀ ls : List (List Char), (ls.map utf8Encode).map utf8Decode = ls := by
    intro ls
    induction ls with
    | nil => rfl
    | cons a as ih => simp [utf8Decode_encode, ih]
  rw [hmap, hmap]
  apply assembleEvents_flatten_invariant
  have h2 : utf8Encode css.flatten = utf8Encode dss.flatten := by
    rw [utf8Encode_flatten, utf8Encode_flatten]
    exact h
  have h3 := congrArg utf8Decode h2
  rw [utf8Decode_encode, utf8Decode_encode] at h3
  exact h3

/-- A concrete tool call used by witnesses. -/
def tcW : ToolCall :=
  ⟨"9".toList, ⟨"get_issues".toList, "".toList⟩⟩

/-- A decoder used by concrete witnesses: maps the payload `A` to a
content event, `TC` to a tool-call event, and rejects anything else
(playing the role of `JSON.parse` plus the field reads at those
concrete payloads). -/
def decodeW (s : List Char) : Option StreamEvent :=
  if s = "A".toList then some (StreamEvent.content ("hi".toList))
  else if s = "TC".toList then some (StreamEvent.toolCall tcW)
  else none

theorem c1_boundary_chunking_invariance_witness :
    ((["data: A\nda".toList, "ta: A\n".toList].map utf8Encode).flatten =
        (["data: A\ndata: A\n".toList].map utf8Encode).flatten) ∧
      assembleEventsBytes decodeW (["data: A\nda".toList, "ta: A\n".toList].map utf8Encode) =
        assembleEventsBytes decodeW (["data: A\ndata: A\n".toList].map utf8Encode) :=
  ⟨by decide,
    c1_boundary_chunking_invariance decodeW ["data: A\nda".toList, "ta: A\n".toList]
      ["data: A\ndata: A\n".toList] _ _ rfl rfl (by decide)⟩

/-- C2 (code behaviour at the failing input): decoding an `error` event
leaves the conversation state unchanged.  In the source the branch is
`console.error(...)` followed by `throw new Error(data.error)` (line 224),
but the `throw` is raised inside the `try` whose `catch` (line 226) only
logs and continues, so the outer handler that would append the terminal
assistant message `Error: ...` is never reached: no message is appended
and no existing message changes. -/
theorem c2_error_event_leaves_state_unchanged (aid msg : List Char)
    (s : AssemblerState) :
    applyEventMid aid (StreamEvent.error msg) s = s := rfl

/-- C3: a malformed record is skipped and everything else is processed
exactly as if the malformed line were absent.  The stream is a list of
newline-terminated lines followed by a trailing fragment; removing the
one `data: `-prefixed line whose trimmed payload the decoder rejects
yields the same final assembler state. -/
theorem c3_malformed_line_skipped (decode : List Char → Option StreamEvent)
    (aid : List Char) (s : AssemblerState)
    (pre post : List (List Char)) (payload frag : List Char)
    (hpre : ∀ l ∈ pre, '\n' ∉ l) (hpost : ∀ l ∈ post, '\n' ∉ l)
    (hpay : '\n' ∉ payload) (hfrag : '\n' ∉ frag)
    (hd : decode (trimChars payload) = none) :
    runAssembler decode aid s
        [linesText (pre ++ ("data: ".toList ++ payload) :: post) ++ frag] =
      runAssembler decode aid s [linesText (pre ++ post) ++ frag] := by
  have hbadnn : '\n' ∉ ("data: ".toList ++ payload) := by
    intro hm
    rcases List.mem_append.mp hm with h1 | h1
    · revert h1
      decide
    · exact hpay h1
  have hall1 : ∀ l ∈ pre ++ ("data: ".toList ++ payload) :: post, '\n' ∉ l := by
    intro l hl
    rcases List.mem_append.mp hl with h1 | h1
    · exact hpre l h1
    · rcases List.mem_cons.mp h1 with h2 | h2
      · rw [h2]; exact hbadnn
      · exact hpost l h2
  have hall2 : ∀ l ∈ pre ++ post, '\n' ∉ l := by
    intro l hl
    rcases List.mem_append.mp hl with h1 | h1
    · exact hpre l h1
    · exact hpost l h1
  have hnoop : ∀ st : AssemblerState,
      processLineMid decode aid st ("data: ".toList ++ payload) = st := by
    intro st
    unfold processLineMid
    rw [decodeLine_malformed decode payload hd]
  unfold runAssembler
  rw [runSSE_eq _ _ _ _ (by simp), runSSE_eq _ _ _ _ (by simp)]
  simp only [List.flatten, List.append_nil, List.nil_append]
  rw [splitNL_linesText _ frag hall1, splitNL_linesText _ frag hall2,
    splitNL_eq_single frag hfrag, List.dropLast_concat, List.dropLast_concat,
    getLastD_append_of_ne_nil _ _ (by simp) [],
    getLastD_append_of_ne_nil _ _ (by simp) []]
  rw [List.foldl_append, List.foldl_append, List.foldl_cons, hnoop]

theorem c3_malformed_line_skipped_witness :
    decodeW (trimChars ("oops".toList)) = none ∧
      runAssembler decodeW "1".toList
          ⟨[⟨"1".toList, Role.assistant, [], some [], some []⟩], [], [], []⟩
          [linesText (["data: A".toList] ++
              ("data: ".toList ++ "oops".toList) :: ["data: A".toList]) ++ "x".toList] =
        runAssembler decodeW "1".toList
          ⟨[⟨"1".toList, Role.assistant, [], some [], some []⟩], [], [], []⟩
          [linesText (["data: A".toList] ++ ["data: A".toList]) ++ "x".toList] :=
  ⟨rfl,
    c3_malformed_line_skipped decodeW "1".toList
      ⟨[⟨"1".toList, Role.assistant, [], some [], some []⟩], [], [], []⟩
      ["data: A".toList] ["data: A".toList] "oops".toList "x".toList
      (by decide) (by decide) (by decide) (by decide) rfl⟩

/-- C7: the stream-assembly fold is deterministic: two runs of the
assembler from equal initial states over equal chunk sequences produce
equal reconstructed states. -/
theorem c7_assembler_deterministic (decode : List Char → Option StreamEvent)
    (aid : List Char) (s1 s2 : AssemblerState) (cs1 cs2 : List (List Char))
    (hs : s1 = s2) (hc : cs1 = cs2) :
    runAssembler decode aid s1 cs1 = runAssembler decode aid s2 cs2 := by
  rw [hs, hc]

theorem c7_assembler_deterministic_witness :
    runAssembler decodeW "1".toList ⟨[], [], [], []⟩ ["data: A\n".toList] =
      runAssembler decodeW "1".toList ⟨[], [], [], []⟩ ["data: A\n".toList] :=
  c7_assembler_deterministic decodeW "1".toList _ _ _ _ rfl rfl

/-- C4: a `done` event overwrites the toolCalls field of the assistant message
and `toolResults` with exactly the lists carried by the event itself
(`data.toolCalls || []`, `data.toolResults || []`), replacing whatever
earlier `tool_call` / `tool_result` events accumulated, both in the
mid-stream dispatch and in the end-of-stream dispatch. -/
theorem c4_done_replaces_tool_lists (aid : List Char)
    (tcs : Option (List ToolCall)) (trs : Option (List ToolResult))
    (s : AssemblerState) (i : Nat) (hm : i < s.messages.length)
    (hid : (s.messages.get ⟨i, hm⟩).id = aid)
    (h1 : i < (applyEventMid aid (StreamEvent.done tcs trs) s).messages.length)
    (h2 : i < (applyEventFinal aid (StreamEvent.done tcs trs) s).messages.length) :
    (((applyEventMid aid (StreamEvent.done tcs trs) s).messages.get ⟨i, h1⟩).toolCalls
        = some (tcs.getD []) ∧
      ((applyEventMid aid (StreamEvent.done tcs trs) s).messages.get ⟨i, h1⟩).toolResults
        = some (trs.getD [])) ∧
    (((applyEventFinal aid (StreamEvent.done tcs trs) s).messages.get ⟨i, h2⟩).toolCalls
        = some (tcs.getD []) ∧
      ((applyEventFinal aid (StreamEvent.done tcs trs) s).messages.get ⟨i, h2⟩).toolResults
        = some (trs.getD [])) := by
  simp only [List.get_eq_getElem] at hid ⊢
  simp [applyEventMid, applyEventFinal, List.getElem_map, hid]

/-- A concrete assembler state for witnesses: one assistant message with
id `1` that already accumulated one tool call. -/
def sW0 : AssemblerState :=
  ⟨[⟨"1".toList, Role.assistant, [], some [tcW], some []⟩], [], [], []⟩

theorem c4_done_replaces_tool_lists_witness :
    ((applyEventMid "1".toList (StreamEvent.done none none) sW0).messages.get
        ⟨0, by decide⟩).toolCalls = some [] :=
  (((c4_done_replaces_tool_lists "1".toList none none sW0 0 (by decide) (by decide)
      (by decide) (by decide)).1).1)

/-- C5 (amended): the end-of-stream pass decodes a buffered record with
the same extraction pipeline as the mid-stream loop, but applies only
`content` and `done` events exactly as the mid-stream dispatch does; a
decoded `tool_call`, `tool_result` or `error` record, and any remainder
the decoder rejects, leaves the state unchanged. -/
theorem c5_final_pass_content_done_only (decode : List Char → Option StreamEvent)
    (aid : List Char) (s : AssemblerState) (line : List Char) :
    processLineFinal decode aid s line =
      match decodeLine decode line with
      | some (StreamEvent.content c) => applyEventMid aid (StreamEvent.content c) s
      | some (StreamEvent.done tcs trs) => applyEventMid aid (StreamEvent.done tcs trs) s
      | _ => s := by
  unfold processLineFinal
  cases hdl : decodeLine decode line with
  | none => rfl
  | some e => cases e <;> rfl

/-- C5 counterexample: the claim says a complete `tool_call` record left
in the buffer at stream end is applied exactly as it would have been
mid-stream; on the concrete stream `data: TC` (one complete record, no
trailing delimiter) the final pass leaves the tool calls of the message
unchanged while the mid-stream dispatch would append the call, so the
two states differ. -/
theorem c5_counterexample :
    ¬ (runAssembler decodeW "1".toList sW0 ["data: TC".toList] =
        applyEventMid "1".toList (StreamEvent.toolCall tcW) sW0) := by
  intro h
  have h2 := congrArg
    (fun st => st.messages.map (fun m => (m.toolCalls.getD []).length)) h
  revert h2
  decide

/-- C6: the request body sent to the chat endpoint is the ordered list of
`{role, content}` projections of the prior messages followed by the new
user message; the projection type `RequestMessage` carries no
`toolCalls` or `toolResults` field. -/
theorem c6_request_role_content_only (ms : List Message) (u : Message) :
    (requestBody ms u).length = ms.length + 1 ∧
    ∀ i (h1 : i < (requestBody ms u).length) (h2 : i < (ms ++ [u]).length),
      ((requestBody ms u).get ⟨i, h1⟩).role = ((ms ++ [u]).get ⟨i, h2⟩).role ∧
      ((requestBody ms u).get ⟨i, h1⟩).content = ((ms ++ [u]).get ⟨i, h2⟩).content := by
  constructor
  · simp [requestBody]
  · intro i h1 h2
    simp only [requestBody, List.get_eq_getElem, List.getElem_map]
    constructor <;> trivial

theorem c6_request_role_content_only_witness :
    ((requestBody [⟨"1".toList, Role.user, "hi".toList, none, none⟩]
        ⟨"2".toList, Role.user, "yo".toList, none, none⟩).length = 2) ∧
      ((requestBody [⟨"1".toList, Role.user, "hi".toList, none, none⟩]
          ⟨"2".toList, Role.user, "yo".toList, none, none⟩).get ⟨1, by decide⟩).content =
        "yo".toList :=
  ⟨(c6_request_role_content_only [⟨"1".toList, Role.user, "hi".toList, none, none⟩]
      ⟨"2".toList, Role.user, "yo".toList, none, none⟩).1,
    ((c6_request_role_content_only [⟨"1".toList, Role.user, "hi".toList, none, none⟩]
        ⟨"2".toList, Role.user, "yo".toList, none, none⟩).2 1 (by decide) (by decide)).2⟩

/-- C10: frame property of event application.  Processing a single
`content`, `tool_call`, `tool_result` or `done` event (mid-stream or in
the end-of-stream dispatch) keeps the length of the message list and
leaves every message whose id differs from the current assistant id
unchanged field-for-field. -/
theorem c10_frame_property (aid : List Char) (e : StreamEvent) (s : AssemblerState)
    (he : e.isErrorEvent = false) :
    ((applyEventMid aid e s).messages.length = s.messages.length ∧
      ∀ i (h1 : i < (applyEventMid aid e s).messages.length)
        (h2 : i < s.messages.length),
        (s.messages.get ⟨i, h2⟩).id ≠ aid →
        (applyEventMid aid e s).messages.get ⟨i, h1⟩ = s.messages.get ⟨i, h2⟩) ∧
    ((applyEventFinal aid e s).messages.length = s.messages.length ∧
      ∀ i (h1 : i < (applyEventFinal aid e s).messages.length)
        (h2 : i < s.messages.length),
        (s.messages.get ⟨i, h2⟩).id ≠ aid →
        (applyEventFinal aid e s).messages.get ⟨i, h1⟩ = s.messages.get ⟨i, h2⟩) := by
  cases e with
  | error m => simp [StreamEvent.isErrorEvent] at he
  | content c =>
    refine ⟨⟨by simp [applyEventMid], fun i h1 h2 hne => ?_⟩,
            ⟨by simp [applyEventFinal], fun i h1 h2 hne => ?_⟩⟩ <;>
      · simp only [List.get_eq_getElem] at hne ⊢
        simp [applyEventMid, applyEventFinal, List.getElem_map, hne]
  | toolCall tc =>
    refine ⟨⟨by simp [applyEventMid], fun i h1 h2 hne => ?_⟩,
            ⟨by simp [applyEventFinal], fun i h1 h2 hne => ?_⟩⟩ <;>
      · simp only [List.get_eq_getElem] at hne ⊢
        simp [applyEventMid, applyEventFinal, List.getElem_map, hne]
  | toolResult r =>
    refine ⟨⟨by simp [applyEventMid], fun i h1 h2 hne => ?_⟩,
            ⟨by simp [applyEventFinal], fun i h1 h2 hne => ?_⟩⟩ <;>
      · simp only [List.get_eq_getElem] at hne ⊢
        simp [applyEventMid, applyEventFinal, List.getElem_map, hne]
  | done tcs trs =>
    refine ⟨⟨by simp [applyEventMid], fun i h1 h2 hne => ?_⟩,
            ⟨by simp [applyEventFinal], fun i h1 h2 hne => ?_⟩⟩ <;>
      · simp only [List.get_eq_getElem] at hne ⊢
        simp [applyEventMid, applyEventFinal, List.getElem_map, hne]

/-- A two-message state for the frame-property witness. -/
def sW2 : AssemblerState :=
  ⟨[⟨"1".toList, Role.assistant, [], some [], some []⟩,
    ⟨"2".toList, Role.user, "hi".toList, none, none⟩], [], [], []⟩

theorem c10_frame_property_witness :
    (applyEventMid "1".toList (StreamEvent.content "x".toList) sW2).messages.get
        ⟨1, by decide⟩ = sW2.messages.get ⟨1, by decide⟩ :=
  ((c10_frame_property "1".toList (StreamEvent.content "x".toList) sW2 rfl).1).2
    1 (by decide) (by decide) (by decide)

/-- C8: the issues table for an assistant message with nonempty issues
data is rendered if and only if the lowercased content of the most recent
user message at or before it contains "issue" and not "pull request", or
contains a general-analysis keyword ("analyze", "show me",
"repository info", "repository data") while containing none of the
pull-request keywords ("pull request", "pr", "pull requests"). -/
theorem c8_issues_table_rule (messages : List Message) (message : Message)
    (trs : List ToolResult) (hrole : message.role = Role.assistant)
    (htr : message.toolResults = some trs) (hIss : hasIssuesB trs = true) :
    (issuesTableShown messages message = true ↔
      claimIssuesCond (latestUserContent messages message) = true) := by
  have hpos : 0 < trs.length := by
    rcases List.any_eq_true.mp hIss with ⟨r, hr, _⟩
    cases trs with
    | nil => cases hr
    | cons a as => simp
  unfold issuesTableShown claimIssuesCond
  rw [htr]
  simp [hrole, hpos, hIss, askedForIssuesB, isGeneralAnalysisB, askedForPullRequestsB]

/-- A concrete tool result carrying one issue. -/
def trIssueW : ToolResult :=
  ⟨none, none, none, some [Json.null], none⟩

/-- A concrete assistant message carrying `trIssueW`. -/
def aMsgW : Message :=
  ⟨"2".toList, Role.assistant, [], none, some [trIssueW]⟩

/-- A concrete conversation: a user request for issues, then `aMsgW`. -/
def msgsW : List Message :=
  [⟨"1".toList, Role.user, "show me issues".toList, none, none⟩, aMsgW]

theorem c8_issues_table_rule_witness :
    issuesTableShown msgsW aMsgW = true ↔
      claimIssuesCond (latestUserContent msgsW aMsgW) = true :=
  c8_issues_table_rule msgsW aMsgW [trIssueW] rfl rfl rfl

/-- The common shape of the three table renderings: a found optional
array, rows `slice(0, 50)`, heading count the full length. -/
theorem take50_len (o : Option (List Json)) (rows : List Json)
    (hrows : rows = match o with | some l => l.take 50 | none => []) :
    rows.length ≤ 50 := by
  cases o with
  | none => simp [hrows]
  | some l =>
    subst hrows
    rw [List.length_take]
    exact min_le_left _ _

theorem take50_cnt (o : Option (List Json)) (cnt : Nat)
    (hcnt : cnt = match o with | some l => l.length | none => 0) :
    cnt = (o.getD []).length := by
  cases o with
  | none => simpa using hcnt
  | some l => simpa using hcnt

theorem take50_get (o : Option (List Json)) (rows : List Json)
    (hrows : rows = match o with | some l => l.take 50 | none => []) :
    ∀ i (h1 : i < rows.length) (h2 : i < (o.getD []).length),
      rows.get ⟨i, h1⟩ = (o.getD []).get ⟨i, h2⟩ := by
  cases o with
  | none =>
    subst hrows
    exact fun i h1 h2 => absurd h1 (by simp)
  | some l =>
    subst hrows
    intro i h1 h2
    simp [List.get_eq_getElem, List.getElem_take]

/-- C9: each of the three data tables renders at most 50 rows, taken in
order from the front of the corresponding found array, while its heading
reports the full array length. -/
theorem c9_tables_truncate_to_50 (trs : List ToolResult) :
    ((commitsRows trs).length ≤ 50 ∧
      commitsHeadingCount trs = (commitsArr trs).length ∧
      ∀ i (h1 : i < (commitsRows trs).length) (h2 : i < (commitsArr trs).length),
        (commitsRows trs).get ⟨i, h1⟩ = (commitsArr trs).get ⟨i, h2⟩) ∧
    ((issuesRows trs).length ≤ 50 ∧
      issuesHeadingCount trs = (issuesArr trs).length ∧
      ∀ i (h1 : i < (issuesRows trs).length) (h2 : i < (issuesArr trs).length),
        (issuesRows trs).get ⟨i, h1⟩ = (issuesArr trs).get ⟨i, h2⟩) ∧
    ((pullRequestsRows trs).length ≤ 50 ∧
      pullRequestsHeadingCount trs = (pullRequestsArr trs).length ∧
      ∀ i (h1 : i < (pullRequestsRows trs).length) (h2 : i < (pullRequestsArr trs).length),
        (pullRequestsRows trs).get ⟨i, h1⟩ = (pullRequestsArr trs).get ⟨i, h2⟩) :=
  ⟨⟨take50_len (foundCommits trs) _ rfl, take50_cnt (foundCommits trs) _ rfl,
      take50_get (foundCommits trs) _ rfl⟩,
    ⟨take50_len (foundIssues trs) _ rfl, take50_cnt (foundIssues trs) _ rfl,
      take50_get (foundIssues trs) _ rfl⟩,
    ⟨take50_len (foundPullRequests trs) _ rfl, take50_cnt (foundPullRequests trs) _ rfl,
      take50_get (foundPullRequests trs) _ rfl⟩⟩

/-- A concrete tool-result list with one commit, one issue and one
pull request. -/
def trsAllW : List ToolResult :=
  [⟨none, none, some [Json.null], some [Json.null], some [Json.null]⟩]

theorem c9_tables_truncate_to_50_witness :
    (commitsRows trsAllW).get ⟨0, by decide⟩ = (commitsArr trsAllW).get ⟨0, by decide⟩ ∧
    (issuesRows trsAllW).get ⟨0, by decide⟩ = (issuesArr trsAllW).get ⟨0, by decide⟩ ∧
    (pullRequestsRows trsAllW).get ⟨0, by decide⟩ =
      (pullRequestsArr trsAllW).get ⟨0, by decide⟩ :=
  ⟨((c9_tables_truncate_to_50 trsAllW).1).2.2 0 (by decide) (by decide),
    ((c9_tables_truncate_to_50 trsAllW).2.1).2.2 0 (by decide) (by decide),
    ((c9_tables_truncate_to_50 trsAllW).2.2).2.2 0 (by decide) (by decide)⟩

end GHA
